import Mathlib

/-!
Shallow embedding of the cidre web framework (Go) for specification checking.

Go strings are immutable byte sequences; we model them as `List Nat` with
elements below 256.  Machine 32-bit words (used by SHA-1) are `Nat` reduced
modulo `2^32` at every operation that can overflow.
-/

set_option autoImplicit false

namespace Cidre

/-- A Go string, viewed as its byte sequence. -/
abbrev GoStr := List Nat

/-! ## SHA-1 and HMAC (crypto/sha1, crypto/hmac)

`utils.go` signs session ids with `hmac.New(sha1.New, []byte(key))`.  We embed
the FIPS-180 SHA-1 algorithm directly: words are `Nat % 2^32`.
-/

/-- Left-rotation of a 32-bit word by `n` bits. -/
def rotl (n w : Nat) : Nat := (w * 2 ^ n + w / 2 ^ (32 - n)) % 4294967296

/-- Big-endian 32-bit words from a byte sequence (length a multiple of 4). -/
def toWords : List Nat → List Nat
  | b0 :: b1 :: b2 :: b3 :: rest =>
      (((b0 * 256 + b1) * 256 + b2) * 256 + b3) :: toWords rest
  | _ => []

/-- One step of the SHA-1 message-schedule extension: append
`rotl1 (w[t-3] xor w[t-8] xor w[t-14] xor w[t-16])`. -/
def extendStep (ws : List Nat) : List Nat :=
  ws ++ [rotl 1 (Nat.xor (Nat.xor (ws.getD (ws.length - 3) 0) (ws.getD (ws.length - 8) 0))
                 (Nat.xor (ws.getD (ws.length - 14) 0) (ws.getD (ws.length - 16) 0)))]

/-- Iterate the message-schedule extension `n` times (64 times: 16 → 80 words). -/
def extendW : Nat → List Nat → List Nat
  | 0, ws => ws
  | n + 1, ws => extendW n (extendStep ws)

/-- The SHA-1 round function for round `t`. -/
def sha1F (t b c d : Nat) : Nat :=
  if t < 20 then Nat.lor (Nat.land b c) (Nat.land (4294967295 - b) d)
  else if t < 40 then Nat.xor (Nat.xor b c) d
  else if t < 60 then Nat.lor (Nat.lor (Nat.land b c) (Nat.land b d)) (Nat.land c d)
  else Nat.xor (Nat.xor b c) d

/-- The SHA-1 round constant for round `t`. -/
def sha1K (t : Nat) : Nat :=
  if t < 20 then 1518500249
  else if t < 40 then 1859775393
  else if t < 60 then 2400959708
  else 3395469782

/-- Working state of the SHA-1 compression function. -/
abbrev Sha1State := Nat × Nat × Nat × Nat × Nat

/-- One SHA-1 round: consumes the pair (round index, schedule word). -/
def sha1Round (st : Sha1State) (tw : Nat × Nat) : Sha1State :=
  match st, tw with
  | (a, b, c, d, e), (t, wt) =>
      ((rotl 5 a + sha1F t b c d + e + sha1K t + wt) % 4294967296, a, rotl 30 b, c, d)

/-- Compress one 64-byte block into the running hash state. -/
def processBlock (h : Sha1State) (block : List Nat) : Sha1State :=
  let ws := extendW 64 (toWords block)
  match h, ws.enum.foldl sha1Round h with
  | (h0, h1, h2, h3, h4), (a, b, c, d, e) =>
      ((h0 + a) % 4294967296, (h1 + b) % 4294967296, (h2 + c) % 4294967296,
       (h3 + d) % 4294967296, (h4 + e) % 4294967296)

/-- Compress a padded message (length a multiple of 64) block by block. -/
def processBlocks (h : Sha1State) (l : List Nat) : Sha1State :=
  match l with
  | [] => h
  | b :: rest => processBlocks (processBlock h (List.take 64 (b :: rest))) (List.drop 64 (b :: rest))
termination_by l.length
decreasing_by simp [List.length_drop]; omega

/-- The 8-byte big-endian encoding of the message bit length. -/
def lenBytes (n : Nat) : List Nat :=
  [n / 2 ^ 56 % 256, n / 2 ^ 48 % 256, n / 2 ^ 40 % 256, n / 2 ^ 32 % 256,
   n / 2 ^ 24 % 256, n / 2 ^ 16 % 256, n / 2 ^ 8 % 256, n % 256]

/-- FIPS-180 padding: `0x80`, zeros to 56 mod 64, then the 64-bit bit length. -/
def sha1pad (msg : List Nat) : List Nat :=
  msg ++ 128 :: List.replicate ((119 - msg.length % 64) % 64) 0 ++ lenBytes (8 * msg.length)

/-- Big-endian bytes of one 32-bit word. -/
def wordBytes (w : Nat) : List Nat :=
  [w / 16777216 % 256, w / 65536 % 256, w / 256 % 256, w % 256]

/-- Serialize a final hash state to the 20-byte digest. -/
def digestBytes (h : Sha1State) : List Nat :=
  match h with
  | (h0, h1, h2, h3, h4) =>
      wordBytes h0 ++ wordBytes h1 ++ wordBytes h2 ++ wordBytes h3 ++ wordBytes h4

/-- SHA-1 of a byte sequence (crypto/sha1). -/
def sha1 (msg : List Nat) : List Nat :=
  digestBytes (processBlocks (1732584193, 4023233417, 2562383102, 271733878, 3285377520) (sha1pad msg))

/-- HMAC key preprocessing: hash keys longer than the 64-byte block, then zero-pad. -/
def hmacKey (key : List Nat) : List Nat :=
  let k := if 64 < key.length then sha1 key else key
  k ++ List.replicate (64 - k.length) 0

/-- HMAC-SHA1 (crypto/hmac): `sha1(key xor opad ++ sha1(key xor ipad ++ msg))`. -/
def hmacSha1 (key msg : List Nat) : List Nat :=
  sha1 ((hmacKey key).map (Nat.xor 92) ++ sha1 ((hmacKey key).map (Nat.xor 54) ++ msg))

/-- Go's `hash.Hash.Sum(data)` appends the digest of the bytes written so far to
`data`.  `utils.go` never writes to the mac before calling `Sum`, so the digest
appended is the HMAC of the empty message. -/
def hmacSum (key data : List Nat) : List Nat := data ++ hmacSha1 key []

/-! ## Signed strings (`utils.go`) -/

/-- The byte of a lowercase hex digit, as printed by Go's `%x` verb. -/
def hexDigitChar (n : Nat) : Nat := if n < 10 then 48 + n else 87 + n

/-- Lowercase hex encoding of a byte sequence (`fmt.Sprintf("%x", b)`). -/
def hexEnc : List Nat → List Nat
  | [] => []
  | b :: t => hexDigitChar (b / 16) :: hexDigitChar (b % 16) :: hexEnc t

/-- The literal separator `"----"` as bytes. -/
def sep4 : GoStr := [45, 45, 45, 45]

/-- Index of the first occurrence of `sep` in `s`, if any. -/
def findSubIdx (sep : List Nat) : List Nat → Option Nat
  | [] => if sep.isPrefixOf ([] : List Nat) then some 0 else none
  | a :: t => if sep.isPrefixOf (a :: t) then some 0 else (findSubIdx sep t).map (· + 1)

/-- Go's `strings.SplitN(s, sep, 2)`: `[s]` when `sep` does not occur, else the
parts before and after the first occurrence. -/
def splitN2 (sep s : List Nat) : List (List Nat) :=
  match findSubIdx sep s with
  | none => [s]
  | some i => [s.take i, s.drop (i + sep.length)]

/-- Result of `ValidateSignedString`: the id on success, the tamper error, or a
Go runtime panic (index out of range). -/
inductive VResult where
  | ok (s : GoStr)
  | tampered
  | panicked
deriving DecidableEq, Repr

/-- `SignString` from `utils.go`:
`fmt.Sprintf("%x----%s", hmac.New(sha1.New, []byte(key)).Sum([]byte(value)), value)`. -/
def SignString (value key : GoStr) : GoStr :=
  hexEnc (hmacSum key value) ++ sep4 ++ value

/-- `ValidateSignedString` from `utils.go`: split on the first `"----"`, compare
the first part against the hex of `Sum([]byte(parts[1]))`.  When the separator
is absent, `parts` has one element and `parts[1]` panics. -/
def ValidateSignedString (value key : GoStr) : VResult :=
  match splitN2 sep4 value with
  | [p0, p1] => if p0 = hexEnc (hmacSum key p1) then .ok p1 else .tampered
  | _ => .panicked

/-- Modelled from the spec: cookie value
`hex(HMAC-SHA1(secret, sessionID)) + "----" + sessionID` (the hex of the MAC
computed over the session id, then the separator, then the id).  Stated only to
compare with `SignString` as translated from the source. -/
def SpecSignString (value key : GoStr) : GoStr :=
  hexEnc (hmacSha1 key value) ++ sep4 ++ value

/-! ## Middleware chains (`app.go`)

A `MiddlewareChain` is a handler list plus a cursor `sp` starting at `-1`;
`DoNext` increments the cursor and invokes `middlewares[sp]`.  Middlewares in
this codebase either write, call `DoNext` once, and write again; write without
yielding (a typical handler); write and then yield; or do nothing (the
`NopMiddleware` sentinel).  We reify those behaviours as syntax and give the
cursor semantics by recursion on the list suffix to the right of the cursor.
-/

/-- The behaviours middlewares exhibit in cidre. -/
inductive MWCode where
  /-- Writes `pre`, calls `DoNext`, then writes `post`. -/
  | wrap (pre post : String)
  /-- Writes `out` and returns without calling `DoNext` (a typical handler). -/
  | leaf (out : String)
  /-- Writes `out`, then calls `DoNext` (a handler that yields). -/
  | leafNext (out : String)
  /-- The `NopMiddleware` sentinel: does nothing. -/
  | nop
deriving DecidableEq, Repr

/-- Invoke the middleware at absolute index `i`; `rest` is the suffix of the
chain from index `i`.  `DoNext` moves to index `i + 1`.  Returns the writes and
the final cursor value, or `none` for Go's index-out-of-range panic when a
continuation call runs off the end of the list. -/
def runMW : List MWCode → Nat → Option (List String × Nat)
  | [], _ => none
  | .wrap pre post :: rest, i => (runMW rest (i + 1)).map (fun r => (pre :: (r.1 ++ [post]), r.2))
  | .leaf out :: _, i => some ([out], i)
  | .leafNext out :: rest, i => (runMW rest (i + 1)).map (fun r => (out :: r.1, r.2))
  | .nop :: _, i => some ([], i)

/-- `Route.ServeHTTP`: copy the chain (cursor `-1`) and call `DoNext`, which
invokes index 0. -/
def RunChain (mws : List MWCode) : Option (List String × Nat) := runMW mws 0

/-- `NewRoute`'s chain layout: the middlewares, then the handler, then the
`NopMiddleware` sentinel. -/
def NewRouteChain (middlewares : List MWCode) (handler : MWCode) : List MWCode :=
  middlewares ++ [handler, .nop]

/-! ## Dispatch (`app.go`, `App.ServeHTTP`)

The route table is a Go `map[string]*Route`; `ServeHTTP` ranges over it.  Go
map range order is unspecified and deliberately randomized, so the scan order
is an input of the model: dispatch takes the route list in some iteration
order.  A compiled anchored pattern is embedded as its matching function.
-/

/-- A route as the dispatch loop sees it: name, method, and the compiled
anchored pattern `^p$`, embedded as its matcher. -/
structure GoRoute where
  name : String
  method : GoStr
  patternMatch : GoStr → Bool

/-- ASCII uppercase of one byte (`strings.ToUpper` on ASCII data). -/
def toUpperByte (b : Nat) : Nat := if 97 ≤ b ∧ b ≤ 122 then b - 32 else b

/-- `strings.ToUpper` on a byte string (ASCII range). -/
def goToUpper (s : GoStr) : GoStr := s.map toUpperByte

/-- The dispatch loop of `App.ServeHTTP`, given one iteration order of the
route map: skip routes whose upper-cased method differs, stop at the first
route whose pattern matches the path. -/
def dispatch (routes : List GoRoute) (method path : GoStr) : Option GoRoute :=
  routes.find? (fun route =>
    goToUpper method == goToUpper route.method && route.patternMatch path)

/-! ## Panic recovery and cleanup (`app.go`)

`App.ServeHTTP` defers `App.cleanup` and then runs the hooks and the matched
chain.  `cleanup` recovers a pending panic (routing it to `OnPanic`), records
the latency, and runs the `end_request` hooks in reverse.  The body of the
request — everything between `start_request` and `end_action` — either
completes with a list of response writes or panics partway, which we embed as
an `Except` value.
-/

/-- One write to the response: a status code and a body chunk. -/
structure HttpWrite where
  status : Nat
  body : String
deriving DecidableEq, Repr

/-- `App.DefaultOnPanic`: `http.Error` with a stack dump when `Debug` is set,
else the fixed generic body.  `http.Error` appends a newline to the message.
The stack text is a runtime artifact and enters as a parameter. -/
def DefaultOnPanic (debug : Bool) (stack : String) (rcv : String) : HttpWrite :=
  if debug then ⟨500, rcv ++ ":\n\n" ++ stack ++ "\n"⟩
  else ⟨500, "Internal Server Error\n"⟩

/-- The observable outcome of one request dispatch. -/
structure DispatchTrace where
  /-- Response writes, in order. -/
  writes : List HttpWrite
  /-- How many times a panic was recovered. -/
  recovered : Nat
  /-- Whether the `end_action` hooks ran (normal path only). -/
  endActionRan : Bool
  /-- The `end_request` hooks that ran, in execution order. -/
  endRequestRan : List String
  /-- Whether `ctx.ResponseTime` was recorded. -/
  latencyRecorded : Bool

/-- `App.cleanup`: recover (calling `OnPanic` if a panic is pending), record
the latency, run the `end_request` hooks in reverse registration order. -/
def cleanup (debug : Bool) (stack : String) (endRequestHooks : List String)
    (rcv : Option String) (writes : List HttpWrite) (endActionRan : Bool) : DispatchTrace :=
  match rcv with
  | some p => ⟨writes ++ [DefaultOnPanic debug stack p], 1, endActionRan, endRequestHooks.reverse, true⟩
  | none => ⟨writes, 0, endActionRan, endRequestHooks.reverse, true⟩

/-- The dispatch boundary of `App.ServeHTTP` around a matched route: run the
body; the deferred `cleanup` receives the recovered value (if the body
panicked) together with the writes made so far.  `end_action` hooks run only
when the body completes normally. -/
def ServeHTTPBoundary (debug : Bool) (stack : String) (endRequestHooks : List String)
    (action : Except (String × List HttpWrite) (List HttpWrite)) : DispatchTrace :=
  match action with
  | .ok ws => cleanup debug stack endRequestHooks none ws true
  | .error (p, ws) => cleanup debug stack endRequestHooks (some p) ws false

/-! ## Reverse URL building (`app.go`, `App.BuildUrl`)

`BuildUrl` looks the route up by name (panicking when absent) and replaces
each leftmost non-overlapping match of `\(\?P<([^<]+)>[^\)]+\)` in the raw
pattern string with `args[counter]`, incrementing the counter; when the
counter reaches `len(args)` the indexing `args[counter]` panics.  We embed the
matcher for that one regular expression directly, with Go's leftmost-first
backtracking order: `[^<]+` is greedy, so candidate name lengths are tried
from the maximal run of non-`<` bytes downwards; `[^\)]+\)` then forces the
maximal run of non-`)` bytes followed by `)`. -/

/-- Try a match at the current position with name length exactly `k` (bytes
after the literal `"(?P<"`): requires byte `k` to be `>` and a nonempty
`)`-terminated body after it.  Returns the total match length. -/
def nameCand (rest : List Nat) (k : Nat) : Option Nat :=
  match rest[k]? with
  | some 62 =>
      if 1 ≤ ((rest.drop (k + 1)).takeWhile (fun b => decide (b ≠ 41))).length ∧
          (rest.drop (k + 1))[((rest.drop (k + 1)).takeWhile (fun b => decide (b ≠ 41))).length]? =
            some 41 then
        some (4 + k + 1 + ((rest.drop (k + 1)).takeWhile (fun b => decide (b ≠ 41))).length + 1)
      else none
  | _ => none

/-- Backtracking over candidate name lengths, longest first. -/
def tryK : Nat → List Nat → Option Nat
  | 0, _ => none
  | k + 1, rest =>
      match nameCand rest (k + 1) with
      | some len => some len
      | none => tryK k rest

/-- Match `\(\?P<([^<]+)>[^\)]+\)` at the head of `s`, returning the match
length.  `"(?P<"` is bytes `40, 63, 80, 60`. -/
def tryParamMatch : List Nat → Option Nat
  | 40 :: 63 :: 80 :: 60 :: rest =>
      tryK (rest.takeWhile (fun b => decide (b ≠ 60))).length rest
  | _ => none

/-- Outcome of `App.BuildUrl`: a URL, the "not defined" panic, or the
index-out-of-range panic from `args[counter]`. -/
inductive BuildR where
  | ok (s : GoStr)
  | panicNotDefined (name : String)
  | panicIndex
deriving DecidableEq, Repr

/-- The replacement scan of `ReplaceAllStringFunc`, fuelled by the remaining
length (each step consumes at least one byte, so `s.length` fuel is always
enough; see `replaceParamsF_fuel`). -/
def replaceParamsF : Nat → List Nat → List GoStr → Nat → BuildR
  | _, [], _, _ => .ok []
  | 0, s, _, _ => .ok s
  | fuel + 1, a :: t, args, counter =>
      match tryParamMatch (a :: t) with
      | some len =>
          match args[counter]? with
          | none => .panicIndex
          | some rep =>
              match replaceParamsF fuel ((a :: t).drop len) args (counter + 1) with
              | .ok r => .ok (rep ++ r)
              | e => e
      | none =>
          match replaceParamsF fuel t args counter with
          | .ok r => .ok (a :: r)
          | e => e

/-- Number of matches of the parameter regex in `s`, same scan. -/
def countParamsF : Nat → List Nat → Nat
  | _, [] => 0
  | 0, _ => 0
  | fuel + 1, a :: t =>
      match tryParamMatch (a :: t) with
      | some len => 1 + countParamsF fuel ((a :: t).drop len)
      | none => countParamsF fuel t

/-- Number of named-parameter occurrences in a raw pattern string. -/
def countParams (s : List Nat) : Nat := countParamsF s.length s

/-- Lookup in the `App.Routes` map restricted to the pattern strings. -/
def lookupRoute : List (String × GoStr) → String → Option GoStr
  | [], _ => none
  | (k, v) :: t, n => if k = n then some v else lookupRoute t n

/-- `App.BuildUrl`: panic when the name is not registered, else substitute the
arguments into the named-capture occurrences of the raw pattern. -/
def BuildUrl (routes : List (String × GoStr)) (n : String) (args : List GoStr) : BuildR :=
  match lookupRoute routes n with
  | none => .panicNotDefined n
  | some pat => replaceParamsF pat.length pat args 0

/-! ## Sessions (`session.go`)

A `Session` owns a `Dict` whose `"_flash"` key holds the
`map[string][]string` of flash messages; the claims only touch that entry, so
the flash map is carried directly (Go maps become association lists).  Times
are `time.Time`/`time.Duration` nanosecond values, embedded as `Int`. -/

/-- A session: id, killed flag, last access time, and the flash map stored
under the `"_flash"` dict key. -/
structure GoSession where
  id : GoStr
  killed : Bool
  lastAccessTime : Int
  flash : List (String × List String)
deriving DecidableEq, Repr

/-- `NewSession`: fresh dict whose flash map is empty, last access now. -/
def NewSession (id : GoStr) (now : Int) : GoSession := ⟨id, false, now, []⟩

/-- Go map read `flash[category]`. -/
def flashLookup : List (String × List String) → String → Option (List String)
  | [], _ => none
  | (k, v) :: t, c => if k = c then some v else flashLookup t c

/-- Go map write `flash[category] = v`. -/
def flashSet : List (String × List String) → String → List String → List (String × List String)
  | [], c, v => [(c, v)]
  | (k, w) :: t, c, v => if k = c then (c, v) :: t else (k, w) :: flashSet t c v

/-- `Session.AddFlash`: create the category's slice when absent, then append
the message to it. -/
def AddFlash (sess : GoSession) (category message : String) : GoSession :=
  let m :=
    match flashLookup sess.flash category with
    | none => flashSet sess.flash category []
    | some _ => sess.flash
  let cur := (flashLookup m category).getD []
  { sess with flash := flashSet m category (cur ++ [message]) }

/-- `Session.Flashes`: return the whole flash map and reset it to empty. -/
def Flashes (sess : GoSession) : List (String × List String) × GoSession :=
  (sess.flash, { sess with flash := [] })

/-- The `MemorySessionStore` map, as an association list with unique keys. -/
abbrev Store := List (GoStr × GoSession)

/-- Go map read `ms.store[sessionId]`. -/
def storeLookup : Store → GoStr → Option GoSession
  | [], _ => none
  | (k, v) :: t, n => if k = n then some v else storeLookup t n

/-- Go map `delete(ms.store, key)`. -/
def storeDelete (st : Store) (k : GoStr) : Store :=
  st.filter (fun kv => decide (kv.1 ≠ k))

/-- `MemorySessionStore.Gc`: collect the keys of entries whose last-access age
strictly exceeds the lifetime, then delete them. -/
def Gc (now lifetime : Int) (st : Store) : Store :=
  let delkeys := (st.filter (fun kv => decide (now - kv.2.lastAccessTime > lifetime))).map Prod.fst
  delkeys.foldl (fun acc k => storeDelete acc k) st

/-! ## Supporting lemmas -/

/-- A chain that ends in the sentinel never runs off the end of the list. -/
theorem runMW_append_nop (l : List MWCode) (i : Nat) :
    (runMW (l ++ [.nop]) i).isSome = true := by
  induction l generalizing i with
  | nil => rfl
  | cons c t ih =>
    cases c with
    | wrap pre post =>
        have h := ih (i + 1)
        cases hrec : runMW (t ++ [.nop]) (i + 1) with
        | none => rw [hrec] at h; exact absurd h (by simp)
        | some r => simp [runMW, hrec]
    | leaf out => rfl
    | leafNext out =>
        have h := ih (i + 1)
        cases hrec : runMW (t ++ [.nop]) (i + 1) with
        | none => rw [hrec] at h; exact absurd h (by simp)
        | some r => simp [runMW, hrec]
    | nop => rfl

/-- Deleting key `d` from the store: lookups of `d` fail, others are unchanged. -/
theorem storeLookup_delete (st : Store) (d k : GoStr) :
    storeLookup (storeDelete st d) k = if k = d then none else storeLookup st k := by
  induction st with
  | nil => simp [storeDelete, storeLookup]
  | cons kv t ih =>
      obtain ⟨k0, v0⟩ := kv
      simp only [storeDelete, ne_eq, decide_not] at ih ⊢
      by_cases h0 : k0 = d
      · subst h0
        by_cases hk : k = k0
        · subst hk
          simp [List.filter_cons, ih]
        · simp [List.filter_cons, ih, storeLookup, hk, Ne.symm hk]
      · by_cases hk : k0 = k
        · subst hk
          simp [List.filter_cons, storeLookup, h0, Ne.symm h0]
        · simp [List.filter_cons, storeLookup, ih, h0, hk]

/-- Folding deletions over a key list: a lookup fails exactly for deleted keys. -/
theorem storeLookup_foldl_delete (ks : List GoStr) (st : Store) (k : GoStr) :
    storeLookup (ks.foldl (fun acc d => storeDelete acc d) st) k =
      if k ∈ ks then none else storeLookup st k := by
  induction ks generalizing st with
  | nil => simp
  | cons d ds ih =>
      simp only [List.foldl_cons]
      rw [ih, storeLookup_delete]
      by_cases h1 : k ∈ ds
      · simp [h1]
      · by_cases h2 : k = d <;> simp [h1, h2]

/-- A successful lookup names an entry of the store. -/
theorem storeLookup_eq_some_mem {st : Store} {k : GoStr} {sess : GoSession}
    (h : storeLookup st k = some sess) : (k, sess) ∈ st := by
  induction st with
  | nil => exact absurd h (by simp [storeLookup])
  | cons kv t ih =>
      obtain ⟨k0, v0⟩ := kv
      by_cases hk : k0 = k
      · subst hk
        simp only [storeLookup, if_true, eq_self_iff_true, Option.some.injEq] at h
        subst h
        exact List.mem_cons_self _ _
      · simp only [storeLookup, if_neg hk] at h
        exact List.mem_cons_of_mem _ (ih h)

/-- Hex encoding doubles the length. -/
theorem hexEnc_length (l : List Nat) : (hexEnc l).length = 2 * l.length := by
  induction l with
  | nil => rfl
  | cons b t ih =>
      simp only [hexEnc, List.length_cons, ih]
      omega

/-- Hex digit bytes are at least `'0'`. -/
theorem hexDigitChar_ge (n : Nat) : 48 ≤ hexDigitChar n := by
  unfold hexDigitChar
  split <;> omega

/-- No byte of a hex encoding is the dash `'-'`. -/
theorem hexEnc_ne_dash (l : List Nat) : ∀ b ∈ hexEnc l, b ≠ 45 := by
  induction l with
  | nil => simp [hexEnc]
  | cons x t ih =>
      intro b hb
      simp only [hexEnc, List.mem_cons] at hb
      rcases hb with h | h | h
      · have := hexDigitChar_ge (x / 16)
        omega
      · have := hexDigitChar_ge (x % 16)
        omega
      · exact ih b h

/-- Hex digits decode uniquely. -/
theorem hexDigitChar_inj {a b : Nat} (ha : a < 16) (hb : b < 16)
    (h : hexDigitChar a = hexDigitChar b) : a = b := by
  unfold hexDigitChar at h
  split at h <;> split at h <;> omega

/-- Hex encoding is injective on byte sequences. -/
theorem hexEnc_inj : ∀ {l1 l2 : List Nat}, (∀ b ∈ l1, b < 256) → (∀ b ∈ l2, b < 256) →
    hexEnc l1 = hexEnc l2 → l1 = l2 := by
  intro l1
  induction l1 with
  | nil =>
      intro l2 _ _ h
      cases l2 with
      | nil => rfl
      | cons b t => simp [hexEnc] at h
  | cons a t ih =>
      intro l2 h1 h2 h
      cases l2 with
      | nil => simp [hexEnc] at h
      | cons b u =>
          simp only [hexEnc, List.cons.injEq] at h
          obtain ⟨hd1, hd2, ht⟩ := h
          have ha : a < 256 := h1 a (by simp)
          have hb : b < 256 := h2 b (by simp)
          have e1 : a / 16 = b / 16 := hexDigitChar_inj (by omega) (by omega) hd1
          have e2 : a % 16 = b % 16 := hexDigitChar_inj (by omega) (by omega) hd2
          have hab : a = b := by omega
          subst hab
          exact congrArg (a :: ·)
            (ih (fun x hx => h1 x (by simp [hx])) (fun x hx => h2 x (by simp [hx])) ht)

/-- The SHA-1 digest has 20 bytes. -/
theorem digestBytes_length (h : Sha1State) : (digestBytes h).length = 20 := by
  obtain ⟨a, b, c, d, e⟩ := h
  rfl

/-- The SHA-1 digest has 20 bytes. -/
theorem sha1_length (m : List Nat) : (sha1 m).length = 20 :=
  digestBytes_length _

/-- Each byte of a serialized word is below 256. -/
theorem wordBytes_lt (w : Nat) : ∀ b ∈ wordBytes w, b < 256 := by
  intro b hb
  simp only [wordBytes, List.mem_cons, List.not_mem_nil, or_false] at hb
  rcases hb with rfl | rfl | rfl | rfl <;> exact Nat.mod_lt _ (by omega)

/-- Each byte of a SHA-1 digest is below 256. -/
theorem digestBytes_lt (h : Sha1State) : ∀ b ∈ digestBytes h, b < 256 := by
  obtain ⟨h0, h1, h2, h3, h4⟩ := h
  intro b hb
  simp only [digestBytes, List.mem_append] at hb
  rcases hb with ((((h | h) | h) | h) | h) <;> exact wordBytes_lt _ b h

/-- Each byte of a SHA-1 digest is below 256. -/
theorem sha1_lt (m : List Nat) : ∀ b ∈ sha1 m, b < 256 :=
  digestBytes_lt _

/-- HMAC-SHA1 output has 20 bytes. -/
theorem hmacSha1_length (k m : List Nat) : (hmacSha1 k m).length = 20 :=
  sha1_length _

/-- Each byte of an HMAC-SHA1 output is below 256. -/
theorem hmacSha1_lt (k m : List Nat) : ∀ b ∈ hmacSha1 k m, b < 256 :=
  sha1_lt _

/-- The signed string is the doubled-length hex part, the separator, and the id. -/
theorem SignString_length (v k : GoStr) : (SignString v k).length = 3 * v.length + 44 := by
  simp only [SignString, hmacSum, List.length_append, hexEnc_length, hmacSha1_length, sep4,
    List.length_cons, List.length_nil]
  omega

/-- A list extends each of its prefixes. -/
theorem isPrefixOf_eq_append {l1 l2 : List Nat} (h : l1.isPrefixOf l2 = true) :
    l2 = l1 ++ l2.drop l1.length := by
  induction l1 generalizing l2 with
  | nil => simp
  | cons a t ih =>
      cases l2 with
      | nil => simp [List.isPrefixOf] at h
      | cons b u =>
          simp only [List.isPrefixOf, Bool.and_eq_true, beq_iff_eq] at h
          obtain ⟨hab, hrest⟩ := h
          subst hab
          simp only [List.length_cons, List.drop_succ_cons, List.cons_append, List.cons.injEq,
            true_and]
          exact ih hrest

/-- Every list is a prefix of itself followed by anything. -/
theorem isPrefixOf_append_self (l r : List Nat) : l.isPrefixOf (l ++ r) = true := by
  induction l with
  | nil => simp [List.isPrefixOf]
  | cons a t ih => simp [List.isPrefixOf, ih]

/-- A found occurrence really is an occurrence. -/
theorem findSubIdx_isPrefixOf {sep s : List Nat} {i : Nat}
    (h : findSubIdx sep s = some i) : sep.isPrefixOf (s.drop i) = true := by
  induction s generalizing i with
  | nil =>
      unfold findSubIdx at h
      split at h
      · injection h with h
        subst h
        assumption
      · exact Option.noConfusion h
  | cons a t ih =>
      unfold findSubIdx at h
      split at h
      · injection h with h
        subst h
        assumption
      · cases hf : findSubIdx sep t with
        | none => rw [hf] at h; exact Option.noConfusion h
        | some j =>
            rw [hf] at h
            simp only [Option.map_some'] at h
            injection h with h
            subst h
            simpa using ih hf

/-- The index returned by `findSubIdx` is at most the length of the list. -/
theorem findSubIdx_le_length {sep s : List Nat} {i : Nat}
    (h : findSubIdx sep s = some i) : i ≤ s.length := by
  induction s generalizing i with
  | nil =>
      unfold findSubIdx at h
      split at h
      · injection h with h
        omega
      · exact Option.noConfusion h
  | cons a t ih =>
      unfold findSubIdx at h
      split at h
      · injection h with h
        omega
      · cases hf : findSubIdx sep t with
        | none => rw [hf] at h; exact Option.noConfusion h
        | some j =>
            rw [hf] at h
            simp only [Option.map_some'] at h
            injection h with h
            have := ih hf
            simp only [List.length_cons]
            omega

/-- The occurrence found by `findSubIdx` fits inside the list. -/
theorem findSubIdx_le {sep s : List Nat} {i : Nat}
    (h : findSubIdx sep s = some i) : i + sep.length ≤ s.length := by
  have hp := findSubIdx_isPrefixOf h
  have hi := findSubIdx_le_length h
  have he := isPrefixOf_eq_append hp
  have := congrArg List.length he
  simp only [List.length_append, List.length_drop] at this
  omega

/-- The first occurrence of the dash separator in a signed string is right
after the dash-free hex part. -/
theorem findSubIdx_append_sep (a b : List Nat) (ha : ∀ x ∈ a, x ≠ 45) :
    findSubIdx sep4 (a ++ sep4 ++ b) = some a.length := by
  induction a with
  | nil =>
      have : sep4.isPrefixOf (sep4 ++ b) = true := isPrefixOf_append_self _ _
      simp only [List.nil_append, List.length_nil]
      rw [show sep4 ++ b = 45 :: ([45, 45, 45] ++ b) from rfl] at this ⊢
      unfold findSubIdx
      rw [this]
      simp
  | cons x t ih =>
      have hx : x ≠ 45 := ha x (by simp)
      have hnp : sep4.isPrefixOf (x :: (t ++ sep4 ++ b)) = false := by
        simp [sep4, List.isPrefixOf]
        intro he
        exact absurd he.symm hx
      simp only [List.cons_append]
      unfold findSubIdx
      rw [show (x :: (t ++ sep4 ++ b)) = x :: (t ++ sep4 ++ b) from rfl]
      simp only [List.cons_append] at hnp
      rw [hnp]
      simp only [Bool.false_eq_true, if_false]
      rw [show t ++ sep4 ++ b = t ++ sep4 ++ b from rfl, ih (fun y hy => ha y (by simp [hy]))]
      simp [List.length_cons]

/-- Splitting a signed string on the separator recovers the two parts. -/
theorem splitN2_signed (H v : List Nat) (hH : ∀ x ∈ H, x ≠ 45) :
    splitN2 sep4 (H ++ sep4 ++ v) = [H, v] := by
  have h1 : List.take H.length (H ++ sep4 ++ v) = H := by
    rw [List.append_assoc]
    exact List.take_left H (sep4 ++ v)
  have h2 : List.drop (H.length + 4) (H ++ sep4 ++ v) = v := by
    have hl : (H ++ sep4).length = H.length + 4 := by simp [sep4]
    exact List.drop_left' hl
  unfold splitN2
  rw [findSubIdx_append_sep H v hH]
  show [List.take H.length (H ++ sep4 ++ v), List.drop (H.length + 4) (H ++ sep4 ++ v)] = [H, v]
  rw [h1, h2]

/-- Round trip: validating a signed string with the same key recovers the id. -/
theorem validate_roundtrip (v k : GoStr) :
    ValidateSignedString (SignString v k) k = .ok v := by
  unfold ValidateSignedString SignString
  rw [splitN2_signed _ _ (hexEnc_ne_dash _)]
  simp

/-- `ValidateSignedString` panics when the separator does not occur. -/
theorem validate_eq_none (s k : GoStr) (h : findSubIdx sep4 s = none) :
    ValidateSignedString s k = .panicked := by
  unfold ValidateSignedString splitN2
  rw [h]

/-- `ValidateSignedString`, rewritten through the first-occurrence index. -/
theorem validate_eq_some (s k : GoStr) (i : Nat) (h : findSubIdx sep4 s = some i) :
    ValidateSignedString s k =
      if s.take i = hexEnc (hmacSum k (s.drop (i + 4))) then .ok (s.drop (i + 4))
      else .tampered := by
  unfold ValidateSignedString splitN2
  rw [h]
  rfl

/-- Changing one byte of a signed string makes validation fail: the signed
string splits at the hex/id boundary by a length argument, and the altered
byte lands either in the hex part, in the separator, or in the id part, each
contradicting the recomputed hex comparison. -/
theorem signed_tamper_rejected (v k : GoStr) (j c : Nat)
    (hv : ∀ b ∈ v, b < 256) (hc : c < 256) (hj : j < (SignString v k).length)
    (hne : c ≠ (SignString v k).getD j 0) :
    ∀ x, ValidateSignedString ((SignString v k).set j c) k ≠ .ok x := by
  intro x hok
  have hmac20 : (hmacSha1 k []).length = 20 := hmacSha1_length k []
  have hHlen : (hexEnc (v ++ hmacSha1 k [])).length = 2 * v.length + 40 := by
    rw [hexEnc_length, List.length_append, hmac20]
    omega
  have hslen := SignString_length v k
  have hsign : SignString v k = hexEnc (v ++ hmacSha1 k []) ++ sep4 ++ v := rfl
  have hs'len : ((SignString v k).set j c).length = 3 * v.length + 44 := by
    rw [List.length_set, hslen]
  cases hf : findSubIdx sep4 ((SignString v k).set j c) with
  | none => rw [validate_eq_none _ _ hf] at hok; simp at hok
  | some i =>
      rw [validate_eq_some _ _ _ hf] at hok
      split at hok
      case isFalse => simp at hok
      case isTrue hcond =>
      have hile : i + 4 ≤ ((SignString v k).set j c).length := by
        have := findSubIdx_le hf
        simpa [sep4] using this
      rw [hs'len] at hile
      have hlen2 := congrArg List.length hcond
      rw [List.length_take, hexEnc_length] at hlen2
      simp only [hmacSum, List.length_append, List.length_drop, hmac20, hs'len] at hlen2
      have hieq : i = 2 * v.length + 40 := by
        rw [Nat.min_eq_left (by omega)] at hlen2
        omega
      rcases Nat.lt_or_ge j (2 * v.length + 40) with hj1 | hj1
      · -- the changed byte is in the hex part
        have hsetA : (SignString v k).set j c
            = (hexEnc (v ++ hmacSha1 k [])).set j c ++ (sep4 ++ v) := by
          rw [hsign, List.append_assoc, List.set_append_left _ _ (by rw [hHlen]; omega)]
        have htakeA : ((SignString v k).set j c).take i
            = (hexEnc (v ++ hmacSha1 k [])).set j c := by
          rw [hsetA, hieq]
          exact List.take_left' (by rw [List.length_set, hHlen])
        have hdropA : ((SignString v k).set j c).drop (i + 4) = v := by
          rw [hsetA, hieq, ← List.append_assoc]
          exact List.drop_left' (by simp [List.length_set, hHlen, sep4])
        rw [htakeA, hdropA] at hcond
        have hcond' : (hexEnc (v ++ hmacSha1 k [])).set j c = hexEnc (v ++ hmacSha1 k []) := by
          simpa [hmacSum] using hcond
        have hgdA := congrArg (fun l => l.getD j 0) hcond'
        simp only at hgdA
        rw [List.getD_eq_getElem?_getD, List.getElem?_set_self (by rw [hHlen]; omega),
          Option.getD_some] at hgdA
        have hsgdA : (SignString v k).getD j 0 = (hexEnc (v ++ hmacSha1 k [])).getD j 0 := by
          rw [hsign, List.append_assoc]
          exact List.getD_append _ _ _ _ (by rw [hHlen]; omega)
        exact hne (by rw [hsgdA, ← hgdA])
      · rcases Nat.lt_or_ge j (2 * v.length + 44) with hj2 | hj2
        · -- the changed byte is in the separator
          have hjb1 : (hexEnc (v ++ hmacSha1 k [])).length ≤ j := by rw [hHlen]; omega
          have hsetB : (SignString v k).set j c
              = hexEnc (v ++ hmacSha1 k []) ++ (sep4.set (j - (2 * v.length + 40)) c ++ v) := by
            rw [hsign, List.append_assoc, List.set_append_right _ _ hjb1,
              List.set_append_left _ _
                (show j - (hexEnc (v ++ hmacSha1 k [])).length < sep4.length by
                  rw [hHlen]
                  simp only [sep4, List.length_cons, List.length_nil]
                  omega),
              hHlen]
          have hdropB : ((SignString v k).set j c).drop i
              = sep4.set (j - (2 * v.length + 40)) c ++ v := by
            rw [hsetB, hieq]
            exact List.drop_left' (by rw [hHlen])
          have hp := findSubIdx_isPrefixOf hf
          rw [hdropB] at hp
          have heqd := isPrefixOf_eq_append hp
          have hsep : sep4.set (j - (2 * v.length + 40)) c = sep4 := by
            have h4 : (sep4.set (j - (2 * v.length + 40)) c).length = 4 := by simp [sep4]
            have ht := congrArg (List.take 4) heqd
            rw [List.take_left' h4, List.take_left' (show sep4.length = 4 from rfl)] at ht
            exact ht
          have hgdB := congrArg (fun l => l.getD (j - (2 * v.length + 40)) 0) hsep
          simp only at hgdB
          rw [List.getD_eq_getElem?_getD,
            List.getElem?_set_self (by simp only [sep4, List.length_cons, List.length_nil]; omega),
            Option.getD_some] at hgdB
          have h45 : sep4.getD (j - (2 * v.length + 40)) 0 = 45 := by
            have hcase : j - (2 * v.length + 40) = 0 ∨ j - (2 * v.length + 40) = 1 ∨
                j - (2 * v.length + 40) = 2 ∨ j - (2 * v.length + 40) = 3 := by omega
            rcases hcase with h | h | h | h <;> rw [h] <;> rfl
          have hsgdB : (SignString v k).getD j 0 = 45 := by
            rw [hsign, List.append_assoc, List.getD_append_right _ _ _ _ hjb1, hHlen,
              List.getD_append _ _ _ _
                (by simp only [sep4, List.length_cons, List.length_nil]; omega)]
            exact h45
          exact hne (by rw [hsgdB]; exact hgdB.trans h45)
        · -- the changed byte is in the id part
          have hjv : j - (2 * v.length + 44) < v.length := by rw [hslen] at hj; omega
          have hlen44 : (hexEnc (v ++ hmacSha1 k []) ++ sep4).length = 2 * v.length + 44 := by
            simp only [List.length_append, hHlen, sep4, List.length_cons, List.length_nil]
          have hsetC : (SignString v k).set j c
              = hexEnc (v ++ hmacSha1 k []) ++ sep4 ++ v.set (j - (2 * v.length + 44)) c := by
            rw [hsign, List.set_append_right _ _ (by rw [hlen44]; omega), hlen44]
          have htakeC : ((SignString v k).set j c).take i = hexEnc (v ++ hmacSha1 k []) := by
            rw [hsetC, hieq, List.append_assoc]
            exact List.take_left' (by rw [hHlen])
          have hdropC : ((SignString v k).set j c).drop (i + 4)
              = v.set (j - (2 * v.length + 44)) c := by
            rw [hsetC, hieq]
            exact List.drop_left' (by rw [hlen44])
          rw [htakeC, hdropC] at hcond
          simp only [hmacSum] at hcond
          have hbounds1 : ∀ b ∈ v ++ hmacSha1 k [], b < 256 := by
            intro b hb
            rcases List.mem_append.mp hb with h | h
            · exact hv b h
            · exact hmacSha1_lt k [] b h
          have hbounds2 : ∀ b ∈ v.set (j - (2 * v.length + 44)) c ++ hmacSha1 k [], b < 256 := by
            intro b hb
            rcases List.mem_append.mp hb with h | h
            · rcases List.mem_or_eq_of_mem_set h with h' | h'
              · exact hv b h'
              · exact h' ▸ hc
            · exact hmacSha1_lt k [] b h
          have happ := hexEnc_inj hbounds1 hbounds2 hcond
          have hvv : v = v.set (j - (2 * v.length + 44)) c := by
            have ht := congrArg (List.take v.length) happ
            rw [List.take_left, List.take_left' (by rw [List.length_set])] at ht
            exact ht
          have hgdC := congrArg (fun l => l.getD (j - (2 * v.length + 44)) 0) hvv
          simp only at hgdC
          have hsetgd : (v.set (j - (2 * v.length + 44)) c).getD (j - (2 * v.length + 44)) 0
              = c := by
            rw [List.getD_eq_getElem?_getD, List.getElem?_set_self hjv, Option.getD_some]
          have hsgdC : (SignString v k).getD j 0 = v.getD (j - (2 * v.length + 44)) 0 := by
            rw [hsign, List.getD_append_right _ _ _ _ (by rw [hlen44]; omega), hlen44]
          exact hne (by rw [hsgdC, hgdC, hsetgd])

/-- A successful `nameCand` reports a positive match length. -/
theorem nameCand_pos (rest : List Nat) (k len : Nat) (h : nameCand rest k = some len) :
    1 ≤ len := by
  unfold nameCand at h
  split at h
  · split at h
    · injection h with h
      omega
    · exact Option.noConfusion h
  · exact Option.noConfusion h

/-- A successful `tryK` reports a positive match length. -/
theorem tryK_pos : ∀ (m : Nat) (rest : List Nat) (len : Nat), tryK m rest = some len → 1 ≤ len := by
  intro m
  induction m with
  | zero => intro rest len h; exact Option.noConfusion h
  | succ k ih =>
      intro rest len h
      cases hnc : nameCand rest (k + 1) with
      | some l =>
          simp only [tryK, hnc] at h
          injection h with h
          rw [← h]
          exact nameCand_pos _ _ _ hnc
      | none =>
          simp only [tryK, hnc] at h
          exact ih rest len h

/-- A successful parameter match consumes at least one byte, so the
length-based fuel of the replacement scan never runs out. -/
theorem tryParamMatch_pos (s : List Nat) (len : Nat) (h : tryParamMatch s = some len) :
    1 ≤ len := by
  unfold tryParamMatch at h
  split at h
  · exact tryK_pos _ _ _ h
  · exact Option.noConfusion h

/-- The replacement scan is independent of the fuel, as long as the fuel
covers the length of the string being scanned. -/
theorem replaceParamsF_fuel : ∀ (f1 f2 : Nat) (s : List Nat) (args : List GoStr) (c : Nat),
    s.length ≤ f1 → s.length ≤ f2 →
    replaceParamsF f1 s args c = replaceParamsF f2 s args c := by
  intro f1
  induction f1 with
  | zero =>
      intro f2 s args c h1 _
      cases s with
      | nil => cases f2 <;> rfl
      | cons a t => simp at h1
  | succ f ih =>
      intro f2 s args c h1 h2
      cases s with
      | nil => cases f2 <;> rfl
      | cons a t =>
          cases f2 with
          | zero => simp at h2
          | succ g =>
              have h1' : t.length + 1 ≤ f + 1 := by simpa using h1
              have h2' : t.length + 1 ≤ g + 1 := by simpa using h2
              cases hm : tryParamMatch (a :: t) with
              | some L =>
                  have hL := tryParamMatch_pos _ _ hm
                  have hdrop : ((a :: t).drop L).length ≤ f := by
                    simp only [List.length_drop, List.length_cons]
                    omega
                  have hdrop2 : ((a :: t).drop L).length ≤ g := by
                    simp only [List.length_drop, List.length_cons]
                    omega
                  cases hg : args[c]? with
                  | none => simp [replaceParamsF, hm, hg]
                  | some rep =>
                      have hrw := ih g ((a :: t).drop L) args (c + 1) hdrop hdrop2
                      simp [replaceParamsF, hm, hg, hrw]
              | none =>
                  have hrw := ih g t args c (by omega) (by omega)
                  simp [replaceParamsF, hm, hrw]

/-- With too few arguments relative to the remaining parameter occurrences,
the replacement scan hits `args[counter]` out of range and panics. -/
theorem replaceParamsF_short_args_panics :
    ∀ (fuel : Nat) (s : List Nat) (args : List GoStr) (c : Nat),
      s.length ≤ fuel → c ≤ args.length → args.length < c + countParamsF fuel s →
      replaceParamsF fuel s args c = .panicIndex := by
  intro fuel
  induction fuel with
  | zero =>
      intro s args c hs hc hlt
      cases s with
      | nil => simp [countParamsF] at hlt; omega
      | cons a t => simp at hs
  | succ f ih =>
      intro s args c hs hc hlt
      cases s with
      | nil => simp [countParamsF] at hlt; omega
      | cons a t =>
          have hs' : t.length + 1 ≤ f + 1 := by simpa using hs
          cases hm : tryParamMatch (a :: t) with
          | some L =>
              have hL := tryParamMatch_pos _ _ hm
              simp only [countParamsF, hm] at hlt
              cases hg : args[c]? with
              | none => simp [replaceParamsF, hm, hg]
              | some rep =>
                  have hclt : c < args.length := by
                    rcases Nat.lt_or_ge c args.length with h | h
                    · exact h
                    · exact absurd hg (by simp [List.getElem?_eq_none h])
                  have hrec := ih ((a :: t).drop L) args (c + 1)
                    (by simp only [List.length_drop, List.length_cons]; omega)
                    (by omega) (by omega)
                  simp [replaceParamsF, hm, hg, hrec]
          | none =>
              simp only [countParamsF, hm] at hlt
              have hrec := ih t args c (by omega) hc (by omega)
              simp [replaceParamsF, hm, hrec]

/-- With unique keys (a Go map invariant), membership determines the lookup. -/
theorem mem_storeLookup_of_nodup {st : Store} {k : GoStr} {sess : GoSession}
    (hnd : (st.map Prod.fst).Nodup) (hm : (k, sess) ∈ st) :
    storeLookup st k = some sess := by
  induction st with
  | nil => exact absurd hm (by simp)
  | cons kv t ih =>
      obtain ⟨k0, v0⟩ := kv
      simp only [List.map_cons, List.nodup_cons] at hnd
      rcases List.mem_cons.mp hm with heq | hmem
      · injection heq with h1 h2
        subst h1
        subst h2
        simp [storeLookup]
      · have hk : k0 ≠ k := by
          intro he
          subst he
          exact hnd.1 (List.mem_map.mpr ⟨(k0, sess), hmem, rfl⟩)
        simp only [storeLookup, if_neg hk]
        exact ih hnd.2 hmem

/-! ## Claim theorems -/

/-- C3.  A chain of three pre/post middlewares around a handler H, compiled by
`NewRoute` and executed through `DoNext`, writes exactly
`pre1 pre2 pre3 H post3 post2 post1` (nested onion order). -/
theorem three_middleware_onion_order (p1 q1 p2 q2 p3 q3 h : String) :
    RunChain (NewRouteChain [.wrap p1 q1, .wrap p2 q2, .wrap p3 q3] (.leaf h)) =
      some ([p1, p2, p3, h, q3, q2, q1], 3) := rfl

/-- C7.  Every chain compiled by `NewRoute` ends in the `NopMiddleware`
sentinel; the suffix past the handler is exactly the sentinel, whose index is
in bounds; invoking it (the handler's `DoNext`) writes nothing and succeeds;
and executing the whole chain never indexes past the end of the handler list
(`none` would be Go's index-out-of-range panic). -/
theorem chain_sentinel_terminates (mds : List MWCode) (h : MWCode) :
    (NewRouteChain mds h).getLast? = some .nop ∧
    List.drop (mds.length + 1) (NewRouteChain mds h) = [.nop] ∧
    mds.length + 1 < (NewRouteChain mds h).length ∧
    runMW (List.drop (mds.length + 1) (NewRouteChain mds h)) (mds.length + 1) =
      some ([], mds.length + 1) ∧
    (RunChain (NewRouteChain mds h)).isSome = true := by
  have hsplit : NewRouteChain mds h = (mds ++ [h]) ++ [.nop] := by
    simp [NewRouteChain]
  have hlen : (mds ++ [h]).length = mds.length + 1 := by simp
  refine ⟨?_, ?_, ?_, ?_, ?_⟩
  · rw [hsplit]; exact List.getLast?_concat _
  · rw [hsplit, ← hlen, List.drop_left]
  · simp [NewRouteChain]
  · rw [hsplit, ← hlen, List.drop_left]; rfl
  · rw [RunChain, hsplit]; exact runMW_append_nop (mds ++ [h]) 0

/-- A route whose compiled pattern matches every path (e.g. `^.*$`). -/
def routeA : GoRoute := ⟨"a", [71, 69, 84], fun _ => true⟩

/-- A route whose compiled pattern matches exactly the path `"/x"`. -/
def routeB : GoRoute := ⟨"b", [71, 69, 84], fun p => p == [47, 120]⟩

/-- C2.  The dispatch loop ranges over the Go map `App.Routes`, whose
iteration order is unspecified: the same route table presented in two
different (both possible) iteration orders selects different routes for the
same request `GET /x`, refuting the fixed-reproducible-order claim. -/
theorem dispatch_depends_on_iteration_order :
    ([routeA, routeB].Perm [routeB, routeA]) ∧
    (dispatch [routeA, routeB] [71, 69, 84] [47, 120]).map GoRoute.name = some "a" ∧
    (dispatch [routeB, routeA] [71, 69, 84] [47, 120]).map GoRoute.name = some "b" :=
  ⟨List.Perm.swap routeB routeA [], rfl, rfl⟩

/-- C4.  The deferred `App.cleanup` runs on every exit path: latency is always
recorded and the `end_request` hooks always run in reverse registration
order; a panicking body is recovered exactly once, and with debug disabled
the default panic handler appends the fixed generic 500 body. -/
theorem cleanup_on_every_exit_path (debug : Bool) (stack : String)
    (endHooks : List String) (action : Except (String × List HttpWrite) (List HttpWrite)) :
    (ServeHTTPBoundary debug stack endHooks action).latencyRecorded = true ∧
    (ServeHTTPBoundary debug stack endHooks action).endRequestRan = endHooks.reverse ∧
    (∀ ws, action = .ok ws → (ServeHTTPBoundary debug stack endHooks action).recovered = 0) ∧
    (∀ p ws, action = .error (p, ws) →
      (ServeHTTPBoundary debug stack endHooks action).recovered = 1 ∧
      (debug = false →
        (ServeHTTPBoundary debug stack endHooks action).writes =
          ws ++ [⟨500, "Internal Server Error\n"⟩])) := by
  cases action with
  | ok ws =>
      refine ⟨rfl, rfl, fun _ _ => rfl, fun p ws' heq => ?_⟩
      exact absurd heq (by simp)
  | error e =>
      obtain ⟨p, ws⟩ := e
      refine ⟨rfl, rfl, fun ws' heq => absurd heq (by simp), fun p' ws' heq => ?_⟩
      have hp : p' = p ∧ ws' = ws := by
        have := heq
        simp only [Except.error.injEq, Prod.mk.injEq] at this
        exact ⟨this.1.symm, this.2.symm⟩
      obtain ⟨hp1, hp2⟩ := hp
      subst hp1; subst hp2
      refine ⟨rfl, fun hdbg => ?_⟩
      subst hdbg
      rfl

/-- Witness for C4 at a concrete panicking request. -/
theorem cleanup_on_every_exit_path_witness :
    (ServeHTTPBoundary false "" ["h1", "h2"] (.error ("boom", []))).recovered = 1 ∧
    (ServeHTTPBoundary false "" ["h1", "h2"] (.error ("boom", []))).writes =
      [⟨500, "Internal Server Error\n"⟩] ∧
    (ServeHTTPBoundary false "" ["h1", "h2"] (.error ("boom", []))).latencyRecorded = true ∧
    (ServeHTTPBoundary false "" ["h1", "h2"] (.error ("boom", []))).endRequestRan = ["h2", "h1"] := by
  have h := cleanup_on_every_exit_path false "" ["h1", "h2"] (.error ("boom", []))
  have he := h.2.2.2 "boom" [] rfl
  exact ⟨he.1, by simpa using he.2 rfl, h.1, by simpa using h.2.1⟩

/-- C9.  On a session whose flash map is empty (as `NewSession` leaves it),
`AddFlash "info" "a"` then `AddFlash "info" "b"` then `Flashes` yields exactly
the map sending `"info"` to `["a", "b"]`, and clears all categories, so an
immediately following `Flashes` yields the empty map. -/
theorem flashes_exactly_once (sess : GoSession) (hf : sess.flash = []) :
    (Flashes (AddFlash (AddFlash sess "info" "a") "info" "b")).1 = [("info", ["a", "b"])] ∧
    (Flashes ((Flashes (AddFlash (AddFlash sess "info" "a") "info" "b")).2)).1 = [] := by
  obtain ⟨i, k, l, f⟩ := sess
  simp only at hf
  subst hf
  exact ⟨rfl, rfl⟩

/-- C9 (counterexample to the universal claim): on a session that already
holds a flash entry under another category, `Flashes` after the two
`AddFlash` calls returns that entry as well, not exactly the map
`"info" to ["a", "b"]`. -/
theorem flashes_preexisting_counterexample :
    (Flashes (AddFlash (AddFlash (⟨[], false, 0, [("x", ["y"])]⟩ : GoSession)
        "info" "a") "info" "b")).1 ≠ [("info", ["a", "b"])] := by
  decide

/-- Witness for C9 on a freshly created session. -/
theorem flashes_exactly_once_witness :
    (Flashes (AddFlash (AddFlash (NewSession [] 0) "info" "a") "info" "b")).1 =
      [("info", ["a", "b"])] ∧
    (Flashes ((Flashes (AddFlash (AddFlash (NewSession [] 0) "info" "a") "info" "b")).2)).1 = [] :=
  flashes_exactly_once (NewSession [] 0) rfl

/-- C10.  `ValidateSignedString` is not total: on any cookie value that does
not contain the `"----"` separator, `strings.SplitN` yields a single part and
the access `parts[1]` panics with an out-of-range index rather than returning
the tamper error. -/
theorem validate_missing_sep_panics (value key : GoStr)
    (h : findSubIdx sep4 value = none) :
    ValidateSignedString value key = .panicked := by
  simp [ValidateSignedString, splitN2, h]

/-- Witness for C10: the empty cookie value panics. -/
theorem validate_missing_sep_panics_witness :
    ValidateSignedString [] [] = .panicked :=
  validate_missing_sep_panics [] [] rfl

/-- C6 (counterexample to the claim as stated).  `BuildUrl` on the registered
route `"r"` with raw pattern `"/u/(?P<id>[^/]+)"` (one named parameter) and
two arguments — an arity mismatch — does not fail: it silently produces the
URL `"/u/1"`, ignoring the surplus argument. -/
theorem buildurl_extra_args_silently_ok :
    BuildUrl [("r", [47, 117, 47, 40, 63, 80, 60, 105, 100, 62, 91, 94, 47, 93, 43, 41])]
        "r" [[49], [50]] = .ok [47, 117, 47, 49] ∧
    countParams [47, 117, 47, 40, 63, 80, 60, 105, 100, 62, 91, 94, 47, 93, 43, 41] = 1 := by
  exact ⟨rfl, rfl⟩

/-- C6 (amended).  `BuildUrl` panics loudly for an unregistered route name,
and panics with an out-of-range index whenever fewer arguments are supplied
than the pattern has named-parameter occurrences; surplus arguments, however,
are silently ignored (see the counterexample). -/
theorem buildurl_fails_loudly (routes : List (String × GoStr)) (n : String) (args : List GoStr) :
    (lookupRoute routes n = none → BuildUrl routes n args = .panicNotDefined n) ∧
    (∀ pat, lookupRoute routes n = some pat → args.length < countParams pat →
      BuildUrl routes n args = .panicIndex) := by
  constructor
  · intro h
    simp [BuildUrl, h]
  · intro pat h hlt
    simp only [BuildUrl, h]
    exact replaceParamsF_short_args_panics pat.length pat args 0 le_rfl (Nat.zero_le _)
      (by simpa [countParams] using hlt)

/-- Witness for (amended) C6: an unknown name panics, and the one-parameter
pattern with an empty argument list panics with an index error. -/
theorem buildurl_fails_loudly_witness :
    BuildUrl [] "missing" [] = .panicNotDefined "missing" ∧
    BuildUrl [("r", [47, 117, 47, 40, 63, 80, 60, 105, 100, 62, 91, 94, 47, 93, 43, 41])]
        "r" [] = .panicIndex := by
  constructor
  · exact (buildurl_fails_loudly [] "missing" []).1 rfl
  · exact (buildurl_fails_loudly
      [("r", [47, 117, 47, 40, 63, 80, 60, 105, 100, 62, 91, 94, 47, 93, 43, 41])] "r" []).2
      [47, 117, 47, 40, 63, 80, 60, 105, 100, 62, 91, 94, 47, 93, 43, 41] rfl (by decide)

/-- C5.  Round trip: for every id and secret, validating the signed string
with the same secret recovers the id without error; and changing any single
byte of the signed string to a different byte makes validation fail (it
returns no id). -/
theorem sign_validate_roundtrip_and_tamper :
    (∀ v k : GoStr, ValidateSignedString (SignString v k) k = .ok v) ∧
    (∀ (v k : GoStr) (j c : Nat), (∀ b ∈ v, b < 256) → c < 256 →
      j < (SignString v k).length → c ≠ (SignString v k).getD j 0 →
      ∀ x, ValidateSignedString ((SignString v k).set j c) k ≠ .ok x) :=
  ⟨validate_roundtrip, signed_tamper_rejected⟩

/-- Witness for C5: the id `"a"` signed with key `"k"` round-trips, and
flipping its first byte (a hex digit) to `'b'` is rejected. -/
theorem sign_validate_roundtrip_and_tamper_witness :
    ValidateSignedString (SignString [97] [107]) [107] = .ok [97] ∧
    ValidateSignedString ((SignString [97] [107]).set 0 98) [107] ≠ .ok [97] := by
  constructor
  · exact sign_validate_roundtrip_and_tamper.1 [97] [107]
  · exact sign_validate_roundtrip_and_tamper.2 [97] [107] 0 98 (by decide) (by decide)
      (by rw [SignString_length]; omega)
      (by rw [show (SignString [97] [107]).getD 0 0 = 54 from rfl]; omega) [97]

/-- C1 (refutation).  `SignString` does not produce
`hex(HMAC-SHA1(secret, id)) ++ "----" ++ id`: because `Sum` appends the
digest of the empty message to its argument, the hex part also contains the
hex of the id itself, so for the one-byte id `"a"` and secret `"k"` the code
produces a 47-byte value while the specified format has 45 bytes. -/
theorem signstring_not_hmac_of_id :
    (SignString [97] [107]).length = 47 ∧ (SpecSignString [97] [107]).length = 45 ∧
    SignString [97] [107] ≠ SpecSignString [97] [107] := by
  have h1 : (SignString [97] [107]).length = 47 := by
    rw [SignString_length]
    simp
  have h2 : (SpecSignString [97] [107]).length = 45 := by
    simp [SpecSignString, List.length_append, hexEnc_length, hmacSha1_length, sep4]
  refine ⟨h1, h2, fun h => ?_⟩
  have hl := congrArg List.length h
  rw [h1, h2] at hl
  exact absurd hl (by omega)

/-- C8.  After one `Gc` sweep over a store with unique keys (a Go map
invariant), a session whose last-access age strictly exceeds the lifetime is
absent, and one whose age is within the lifetime is still present under its
key, unchanged. -/
theorem gc_removes_exactly_expired (now lt : Int) (st : Store) (k : GoStr)
    (sess : GoSession) (hnd : (st.map Prod.fst).Nodup)
    (hlk : storeLookup st k = some sess) :
    (now - sess.lastAccessTime > lt → storeLookup (Gc now lt st) k = none) ∧
    (now - sess.lastAccessTime ≤ lt → storeLookup (Gc now lt st) k = some sess) := by
  have hmem := storeLookup_eq_some_mem hlk
  constructor
  · intro hexp
    have hk : k ∈ (st.filter (fun kv => decide (now - kv.2.lastAccessTime > lt))).map Prod.fst :=
      List.mem_map.mpr ⟨(k, sess), List.mem_filter.mpr ⟨hmem, by simpa using hexp⟩, rfl⟩
    simp only [Gc]
    rw [storeLookup_foldl_delete]
    simp [hk]
  · intro hfresh
    have hk : k ∉ (st.filter (fun kv => decide (now - kv.2.lastAccessTime > lt))).map Prod.fst := by
      intro hk
      obtain ⟨⟨k', s'⟩, hmf, hfst⟩ := List.mem_map.mp hk
      obtain ⟨hmem', hpred⟩ := List.mem_filter.mp hmf
      simp only at hfst
      subst hfst
      have hlk' := mem_storeLookup_of_nodup hnd hmem'
      rw [hlk] at hlk'
      injection hlk' with hs
      subst hs
      simp only [decide_eq_true_eq] at hpred
      omega
    simp only [Gc]
    rw [storeLookup_foldl_delete]
    simp [hk, hlk]

/-- An expired session: last access at time 0. -/
def sessExpired : GoSession := ⟨[97], false, 0, []⟩

/-- A fresh session: last access at time 90. -/
def sessFresh : GoSession := ⟨[98], false, 90, []⟩

/-- Witness store holding one expired and one fresh session. -/
def storeTwo : Store := [([97], sessExpired), ([98], sessFresh)]

/-- Witness for C8 at `now = 100`, `lifetime = 50`: the session idle for 100
is swept, the one idle for 10 survives. -/
theorem gc_removes_exactly_expired_witness :
    storeLookup (Gc 100 50 storeTwo) [97] = none ∧
    storeLookup (Gc 100 50 storeTwo) [98] = some sessFresh :=
  ⟨(gc_removes_exactly_expired 100 50 storeTwo [97] sessExpired (by decide) (by decide)).1
      (by decide),
   (gc_removes_exactly_expired 100 50 storeTwo [98] sessFresh (by decide) (by decide)).2
      (by decide)⟩

end Cidre
